import Mathlib

/-!
# Verification of the zecs entity-component-system core

A shallow embedding of the zecs runtime (query engine, observer diffing,
system resource lifecycle, dependency scheduler, event bus), translated from
the TypeScript sources under `src/`, together with theorems settling the
frozen claims about the natural-language specification.

Modelling conventions:
* Entities are identified by reference; we model object identity as a `Nat`
  id, and an entity's attribute bag as the list of attribute names present
  (`Entity.attrs`) — queries only test attribute presence and arbitrary
  boolean refinements.
* JavaScript `Set` is modelled as a `List` in insertion order with no
  duplicates (insertion is a no-op when the element is present); `Map` is an
  association list in insertion order.
* A method that can `throw` is modelled as returning the pair of the object
  state at the point of the throw and an `Except`: state mutations in the
  source that happen before the throwing check are reflected, ones after are
  not.
-/

namespace Zecs

/-- An entity: a stable identity plus the set of attribute names present.
Attribute values are irrelevant to the core (queries test presence only). -/
structure Entity where
  id : Nat
  attrs : List String
deriving DecidableEq, Repr

/-- `Query` from `query.ts`: an immutable wrapper around a boolean filter. -/
structure Query where
  filter : Entity → Bool

namespace Query

/-- `Query.has(...components)` from `query.ts`: the new filter is the old
filter conjoined with `components.every((c) => c.name in entity)`. -/
def has (q : Query) (components : List String) : Query :=
  ⟨fun entity => q.filter entity && components.all (fun c => entity.attrs.contains c)⟩

/-- `Query.where(filter)` from `query.ts`: conjoins an arbitrary refinement. -/
def refine (q : Query) (p : Entity → Bool) : Query :=
  ⟨fun entity => q.filter entity && p entity⟩

/-- `Query.and(query)` from `query.ts`: conjunction of both filters. -/
def and (q r : Query) : Query :=
  ⟨fun entity => q.filter entity && r.filter entity⟩

/-- `Query.match(entity)` from `query.ts` (a Lean keyword, hence `isMatch`): just applies the filter. -/
def isMatch (q : Query) (entity : Entity) : Bool :=
  q.filter entity

/-- `Query.query(ecs)` from `query.ts`: the entities of the store, in store
iteration order, that pass the filter. -/
def queryList (q : Query) (store : List Entity) : List Entity :=
  store.filter (fun entity => q.isMatch entity)

/-- `Query.count(ecs)` from `query.ts`. -/
def count (q : Query) (store : List Entity) : Nat :=
  (store.filter (fun entity => q.filter entity)).length

end Query

/-- `query()` from `query.ts`: the empty query matching every entity. -/
def query : Query :=
  ⟨fun _ => true⟩

/-- C9: for every query `q`, component list `cs` and entity `e`,
`q.has(cs).match(e)` implies `q.match(e)`; consequently `q.has(cs)` selects a
subset of what `q` selects from every store. -/
theorem query_has_monotone (q : Query) (cs : List String) (e : Entity)
    (h : (q.has cs).isMatch e = true) :
    q.isMatch e = true ∧
      ∀ store : List Entity, ∀ x ∈ (q.has cs).queryList store, x ∈ q.queryList store := by
  constructor
  · simp only [Query.has, Query.isMatch, Bool.and_eq_true] at h
    exact h.1
  · intro store x hx
    simp only [Query.queryList, List.mem_filter] at hx ⊢
    refine ⟨hx.1, ?_⟩
    have hm := hx.2
    simp only [Query.has, Query.isMatch, Bool.and_eq_true] at hm ⊢
    exact hm.1

/-- Witness for C9 at a concrete query, component list and entity. -/
theorem query_has_monotone_witness :
    query.isMatch ⟨0, ["health"]⟩ = true :=
  (query_has_monotone query ["health"] ⟨0, ["health"]⟩ (by decide)).1

/-! ## Event bus (`event.ts`)

`EventType` stores its listeners in a JavaScript `Set`, keyed by listener
function identity; we model listeners as `Nat` ids and the set as a list in
insertion order. `on` adds (no-op when present) and returns a handle that
calls `off`; `off` deletes the listener; `emit` invokes each member of the
set once, in order. -/

namespace EventType

/-- `EventType.on`: `this.#listeners.add(listener)` (JS `Set.add`: no-op when
the listener is already present). -/
def onListener (listeners : List Nat) (l : Nat) : List Nat :=
  if listeners.contains l then listeners else listeners ++ [l]

/-- `EventType.off`: `this.#listeners.delete(listener)` (removes the single
occurrence, if any). -/
def off (listeners : List Nat) (l : Nat) : List Nat :=
  listeners.erase l

/-- `EventType.offAll`: `this.#listeners.clear()`. -/
def offAll (_listeners : List Nat) : List Nat :=
  []

/-- `EventType.emit`: the listeners invoked by one emit, in set iteration
order — exactly the members of the listener set. -/
def emitCalls (listeners : List Nat) : List Nat :=
  listeners

end EventType

/-- C10: subscribing the same listener twice is a no-op (the listener set is
a `Set`), every listener is invoked at most once per emit, a single `off`
removes the listener entirely, and `on`/`off` keep the no-duplicates
invariant of the set. -/
theorem event_listener_set (listeners : List Nat) (l : Nat)
    (h : listeners.Nodup) :
    EventType.onListener (EventType.onListener listeners l) l = EventType.onListener listeners l ∧
      (EventType.emitCalls (EventType.onListener listeners l)).count l = 1 ∧
      (∀ m : Nat, (EventType.emitCalls listeners).count m ≤ 1) ∧
      l ∉ EventType.off (EventType.onListener listeners l) l ∧
      (EventType.onListener listeners l).Nodup ∧ (EventType.off listeners l).Nodup := by
  have hnodup : (EventType.onListener listeners l).Nodup := by
    unfold EventType.onListener
    split
    · exact h
    · next hc =>
      rw [List.elem_iff] at hc
      simpa [List.nodup_append] using ⟨h, hc⟩
  have hmem : l ∈ EventType.onListener listeners l := by
    unfold EventType.onListener
    split
    · next hc => simpa using hc
    · simp
  refine ⟨?_, ?_, ?_, ?_, hnodup, h.erase l⟩
  · unfold EventType.onListener
    split
    · next hc => simp [EventType.onListener, hc]
    · simp [EventType.onListener]
  · simp [EventType.emitCalls, List.count_eq_one_of_mem hnodup hmem]
  · intro m
    exact List.nodup_iff_count_le_one.mp h m
  · exact hnodup.not_mem_erase

/-- Witness for C10 at a concrete listener set. -/
theorem event_listener_set_witness :
    EventType.onListener (EventType.onListener [5, 7] 7) 7 = EventType.onListener [5, 7] 7 ∧
      (EventType.emitCalls (EventType.onListener [5, 7] 7)).count 7 = 1 ∧
      (∀ m : Nat, (EventType.emitCalls [5, 7]).count m ≤ 1) ∧
      7 ∉ EventType.off (EventType.onListener [5, 7] 7) 7 ∧
      (EventType.onListener [5, 7] 7).Nodup ∧ (EventType.off [5, 7] 7).Nodup :=
  event_listener_set [5, 7] 7 (by decide)

/-! ## Observer (`observe.ts`, class `Observer`)

The observer keeps a persistent registry (`#registry`, a `Set` of entity
references), a per-cycle seen set (`#matched`), and an updating flag holding
the cycle's params. Entities are compared by reference, so the registry and
the seen set hold entity ids. Update params are modelled as `Nat`. -/

/-- One fired observer event, in emission order, with its payload. -/
inductive Event where
  | preUpdate (params : Nat)
  | matched (entity : Nat) (params : Nat)
  | updated (entity : Nat) (params : Nat)
  | unmatched (entity : Nat) (params : Nat)
  | postUpdate (params : Nat)
deriving DecidableEq, Repr

/-- JS `Set.add`: append unless already present. -/
def addToSet (s : List Nat) (x : Nat) : List Nat :=
  if s.contains x then s else s ++ [x]

/-- The mutable fields of an `Observer`: `#updating` (the cycle params when a
cycle is in progress), `#registry`, and `#matched` (seen-this-cycle). -/
structure ObserverState where
  updating : Option Nat
  registry : List Nat
  matchedSet : List Nat
deriving DecidableEq, Repr

/-- The observer as first created: not updating, empty registry. -/
def ObserverState.init : ObserverState :=
  ⟨none, [], []⟩

namespace Observer

/-- `Observer.startUpdate`: throws `"Observer is already updating"` when a
cycle is in progress (before any mutation); otherwise records the params,
clears the seen set, and emits `preUpdate`. -/
def startUpdate (st : ObserverState) (params : Nat) :
    ObserverState × Except String (List Event) :=
  if st.updating.isSome then
    (st, .error "Observer is already updating")
  else
    ({ updating := some params, registry := st.registry, matchedSet := [] },
      .ok [.preUpdate params])

/-- `Observer.updateEntity`: for one scanned entity, add it to the registry
and emit `matched` when absent, then emit `updated`, then mark it seen. -/
def updateEntity (st : ObserverState) (entity : Nat) :
    ObserverState × Except String (List Event) :=
  match st.updating with
  | none => (st, .error "Observer is not updating")
  | some params =>
    let (registry, matchEvents) :=
      if st.registry.contains entity then (st.registry, [])
      else (st.registry ++ [entity], [Event.matched entity params])
    ({ updating := some params, registry := registry,
        matchedSet := addToSet st.matchedSet entity },
      .ok (matchEvents ++ [Event.updated entity params]))

/-- The scan loop of `Observer.update`: `updateEntity` on each query result
in store order, propagating a throw. -/
def updateEntities (st : ObserverState) : List Nat →
    ObserverState × Except String (List Event)
  | [] => (st, .ok [])
  | e :: rest =>
    match updateEntity st e with
    | (st1, .error msg) => (st1, .error msg)
    | (st1, .ok evts1) =>
      match updateEntities st1 rest with
      | (st2, .error msg) => (st2, .error msg)
      | (st2, .ok evts2) => (st2, .ok (evts1 ++ evts2))

/-- `Observer.finishUpdate`: clears the updating flag, removes every registry
entity not seen this cycle (in registry iteration order) emitting `unmatched`
for each, then emits `postUpdate`. -/
def finishUpdate (st : ObserverState) :
    ObserverState × Except String (List Event) :=
  match st.updating with
  | none => (st, .error "Observer is not updating")
  | some params =>
    let removed := st.registry.filter (fun e => !st.matchedSet.contains e)
    let registry := st.registry.filter (fun e => st.matchedSet.contains e)
    ({ updating := none, registry := registry, matchedSet := st.matchedSet },
      .ok (removed.map (fun e => Event.unmatched e params) ++ [Event.postUpdate params]))

/-- `Observer.update` on an already-produced scan list (the ids yielded by
`query.query(ecs)` in store order): startUpdate, the scan loop, finishUpdate,
propagating the first throw with the object state at that point. -/
def updateScan (st : ObserverState) (scan : List Nat) (params : Nat) :
    ObserverState × Except String (List Event) :=
  match startUpdate st params with
  | (st1, .error msg) => (st1, .error msg)
  | (st1, .ok evts0) =>
    match updateEntities st1 scan with
    | (st2, .error msg) => (st2, .error msg)
    | (st2, .ok evts1) =>
      match finishUpdate st2 with
      | (st3, .error msg) => (st3, .error msg)
      | (st3, .ok evts2) => (st3, .ok (evts0 ++ evts1 ++ evts2))

/-- `Observer.update(ecs, params)`: the scan list is the query's matches over
the store, in store iteration order. -/
def update (q : Query) (store : List Entity) (st : ObserverState) (params : Nat) :
    ObserverState × Except String (List Event) :=
  updateScan st ((q.queryList store).map Entity.id) params

end Observer

/-- C8: calling `update` while a cycle is in progress throws
`"Observer is already updating"` and leaves the observer state (registry,
seen set, updating flag) unchanged. -/
theorem observer_reentrant_update_errors (q : Query) (store : List Entity)
    (st : ObserverState) (params p0 : Nat) (h : st.updating = some p0) :
    Observer.update q store st params = (st, .error "Observer is already updating") := by
  unfold Observer.update Observer.updateScan Observer.startUpdate
  rw [h]
  rfl

/-- Witness for C8: a concrete mid-update observer state. -/
theorem observer_reentrant_update_errors_witness :
    Observer.update query [⟨0, []⟩] ⟨some 3, [7], []⟩ 4 =
      (⟨some 3, [7], []⟩, .error "Observer is already updating") :=
  observer_reentrant_update_errors query [⟨0, []⟩] ⟨some 3, [7], []⟩ 4 3 rfl

/-! ## The specified event order of one observer cycle

`specCycleEvents` is written from the spec's words (§4.2): `preUpdate`; for
each query match in store order a `matched` event iff the entity is not
already in the registry followed by `updated`; then `unmatched` for every
entity that was in the registry at cycle start but was not seen; then
`postUpdate`. It is compared against the `Observer` methods above. -/

/-- Spec: the events of the scan phase — per entity in scan order, `matched`
iff not already in the (growing) registry, then `updated`. -/
def scanEvents (p : Nat) : List Nat → List Nat → List Event
  | _, [] => []
  | reg, e :: rest =>
    (if reg.contains e then [] else [Event.matched e p]) ++ [Event.updated e p]
      ++ scanEvents p (addToSet reg e) rest

/-- Spec: the full event sequence of one `update(store, params)` call. -/
def specCycleEvents (reg0 scan : List Nat) (p : Nat) : List Event :=
  [Event.preUpdate p] ++ scanEvents p reg0 scan
    ++ (reg0.filter (fun e => !scan.contains e)).map (fun e => Event.unmatched e p)
    ++ [Event.postUpdate p]

/-- The registry (or seen set) after adding every scanned entity in order. -/
def foldAdd (s : List Nat) : List Nat → List Nat
  | [] => s
  | x :: xs => foldAdd (addToSet s x) xs

theorem mem_addToSet {s : List Nat} {x y : Nat} :
    y ∈ addToSet s x ↔ y ∈ s ∨ y = x := by
  unfold addToSet
  split
  · next hc =>
    simp only [List.elem_iff] at hc
    constructor
    · exact Or.inl
    · rintro (hy | rfl) <;> [exact hy; exact hc]
  · simp

theorem mem_foldAdd {xs : List Nat} {s : List Nat} {y : Nat} :
    y ∈ foldAdd s xs ↔ y ∈ s ∨ y ∈ xs := by
  induction xs generalizing s with
  | nil => simp [foldAdd]
  | cons x xs ih =>
    simp only [foldAdd, ih, mem_addToSet, List.mem_cons]
    tauto

theorem addToSet_nodup {s : List Nat} (h : s.Nodup) (x : Nat) :
    (addToSet s x).Nodup := by
  unfold addToSet
  split
  · exact h
  · next hc =>
    rw [List.elem_iff] at hc
    simpa [List.nodup_append] using ⟨h, hc⟩

theorem foldAdd_nodup {xs s : List Nat} (h : s.Nodup) :
    (foldAdd s xs).Nodup := by
  induction xs generalizing s with
  | nil => exact h
  | cons x xs ih => exact ih (addToSet_nodup h x)

theorem foldAdd_decomp (xs : List Nat) (s : List Nat) :
    ∃ ext, foldAdd s xs = s ++ ext ∧ ∀ y ∈ ext, y ∈ xs := by
  induction xs generalizing s with
  | nil => exact ⟨[], by simp [foldAdd]⟩
  | cons x xs ih =>
    obtain ⟨ext, hext, hsub⟩ := ih (addToSet s x)
    unfold foldAdd
    unfold addToSet at hext ⊢
    by_cases hx : s.contains x
    · rw [if_pos hx] at hext ⊢
      exact ⟨ext, hext, fun y hy => List.mem_cons_of_mem x (hsub y hy)⟩
    · rw [if_neg hx] at hext ⊢
      refine ⟨x :: ext, by simpa using hext, ?_⟩
      intro y hy
      rcases List.mem_cons.mp hy with rfl | hy
      · exact List.mem_cons_self y xs
      · exact List.mem_cons_of_mem x (hsub y hy)

/-- The scan loop agrees with the spec's scan description: state threads the
registry and seen set through `addToSet`, and the events are `scanEvents`. -/
theorem updateEntities_ok (scan : List Nat) (reg m : List Nat) (p : Nat) :
    Observer.updateEntities ⟨some p, reg, m⟩ scan =
      (⟨some p, foldAdd reg scan, foldAdd m scan⟩, .ok (scanEvents p reg scan)) := by
  induction scan generalizing reg m with
  | nil => rfl
  | cons e rest ih =>
    simp only [Observer.updateEntities, Observer.updateEntity, scanEvents, foldAdd]
    by_cases he : reg.contains e
    · simp only [if_pos he, addToSet, if_pos he]
      rw [ih]
    · simp only [if_neg he, addToSet, if_neg he]
      rw [ih]

/-- One full cycle from an idle observer: the final state (idle, registry =
the seen entities that survive the filter pass, seen set = the scanned ids)
and the spec's event sequence. -/
theorem updateScan_ok (reg m scan : List Nat) (p : Nat) :
    Observer.updateScan ⟨none, reg, m⟩ scan p =
      (⟨none, (foldAdd reg scan).filter (fun e => (foldAdd [] scan).contains e),
          foldAdd [] scan⟩,
        .ok (specCycleEvents reg scan p)) := by
  obtain ⟨ext, hdecomp, hsub⟩ := foldAdd_decomp scan reg
  have hseen : ∀ y : Nat, (foldAdd [] scan).contains y = scan.contains y := by
    intro y
    simp [List.elem_iff, mem_foldAdd]
  have hremoved :
      (foldAdd reg scan).filter (fun e => !(foldAdd [] scan).contains e) =
        reg.filter (fun e => !scan.contains e) := by
    rw [hdecomp, List.filter_append]
    have hextnil : ext.filter (fun e => !(foldAdd [] scan).contains e) = [] := by
      rw [List.filter_eq_nil_iff]
      intro a ha
      simp [List.elem_iff, mem_foldAdd, hsub a ha]
    rw [hextnil, List.append_nil]
    apply List.filter_congr
    intro a _
    rw [hseen a]
  unfold Observer.updateScan Observer.startUpdate
  simp only [Option.isSome_none, Bool.false_eq_true, if_false, reduceIte]
  rw [updateEntities_ok]
  unfold Observer.finishUpdate
  simp only
  rw [hremoved]
  simp [specCycleEvents]

/-- C1: one `update(store, params)` call from an idle observer fires exactly
the spec's sequence — `preUpdate`; per query match in store order `matched`
(iff absent from the registry) then `updated`; `unmatched` for each
cycle-start registry entity not seen; `postUpdate`. -/
theorem observer_update_event_order (q : Query) (store : List Entity)
    (reg m : List Nat) (p : Nat) :
    (Observer.update q store ⟨none, reg, m⟩ p).2 =
      .ok (specCycleEvents reg ((q.queryList store).map Entity.id) p) := by
  unfold Observer.update
  rw [updateScan_ok]

/-! ## Sequences of update calls (for the matched/unmatched alternation) -/

/-- Drive one observer through a sequence of update calls on raw scan lists,
concatenating the fired events (an errored call contributes nothing). -/
def runScans : ObserverState → List (List Nat × Nat) → ObserverState × List Event
  | st, [] => (st, [])
  | st, (scan, p) :: rest =>
    match Observer.updateScan st scan p with
    | (st1, Except.ok tr) =>
      let r := runScans st1 rest
      (r.1, tr ++ r.2)
    | (st1, Except.error _) => (st1, [])

/-- Drive one observer through a sequence of `update(store, params)` calls. -/
def runUpdates (q : Query) : ObserverState → List (List Entity × Nat) → ObserverState × List Event
  | st, [] => (st, [])
  | st, (store, p) :: rest =>
    match Observer.update q store st p with
    | (st1, Except.ok tr) =>
      let r := runUpdates q st1 rest
      (r.1, tr ++ r.2)
    | (st1, Except.error _) => (st1, [])

/-- The `matched` (`true`) / `unmatched` (`false`) events concerning one
entity, in firing order. -/
def muEvents (e : Nat) (tr : List Event) : List Bool :=
  tr.filterMap fun ev =>
    match ev with
    | Event.matched x _ => if x = e then some true else none
    | Event.unmatched x _ => if x = e then some false else none
    | _ => none

/-- `altFrom b l`: the boolean list `l` strictly alternates, starting with
`b`. With `b = true` this says: the first matched/unmatched event is
`matched`, and between any two consecutive `matched` events there is exactly
one `unmatched` (and conversely). -/
def altFrom : Bool → List Bool → Prop
  | _, [] => True
  | b, x :: xs => x = b ∧ altFrom (!b) xs

theorem muEvents_append (e : Nat) (tr1 tr2 : List Event) :
    muEvents e (tr1 ++ tr2) = muEvents e tr1 ++ muEvents e tr2 := by
  simp [muEvents]

theorem muEvents_scanEvents (e p : Nat) (scan : List Nat) (reg : List Nat) :
    muEvents e (scanEvents p reg scan) =
      if e ∈ reg then [] else if e ∈ scan then [true] else [] := by
  induction scan generalizing reg with
  | nil => simp [scanEvents, muEvents]
  | cons s rest ih =>
    rw [scanEvents, muEvents_append, muEvents_append, ih]
    by_cases hse : s = e
    · subst hse
      by_cases hr : s ∈ reg
      · simp [hr, mem_addToSet, muEvents]
      · simp [hr, mem_addToSet, muEvents]
    · have hmem : e ∈ addToSet reg s ↔ e ∈ reg := by
        rw [mem_addToSet]
        constructor
        · rintro (h | rfl)
          · exact h
          · exact absurd rfl hse
        · exact Or.inl
      by_cases hr : e ∈ reg
      · simp [hr, hmem, muEvents, hse, Ne.symm hse]
      · by_cases hs : e ∈ rest
        · simp [hr, hmem, hs, muEvents, hse, Ne.symm hse]
        · simp [hr, hmem, hs, muEvents, hse, Ne.symm hse]

theorem muEvents_unmatchedList (e p : Nat) (l : List Nat) (h : l.Nodup) :
    muEvents e (l.map (fun x => Event.unmatched x p)) =
      if e ∈ l then [false] else [] := by
  induction l with
  | nil => simp [muEvents]
  | cons x rest ih =>
    have hrest := ih (List.Nodup.of_cons h)
    by_cases hxe : x = e
    · subst hxe
      have : x ∉ rest := (List.nodup_cons.mp h).1
      simp [muEvents, hrest, this] at hrest ⊢
      simpa [muEvents] using hrest
    · simp [muEvents, hxe, Ne.symm hxe] at hrest ⊢
      simpa [muEvents] using hrest

/-- The matched/unmatched trace of one full cycle for a fixed entity:
nothing when its match status is unchanged, one `matched` on entry, one
`unmatched` on exit. -/
theorem muEvents_cycle (e p : Nat) (reg scan : List Nat) (h : reg.Nodup) :
    muEvents e (specCycleEvents reg scan p) =
      if e ∈ reg then (if e ∈ scan then [] else [false])
      else (if e ∈ scan then [true] else []) := by
  unfold specCycleEvents
  rw [muEvents_append, muEvents_append, muEvents_append,
    muEvents_scanEvents, muEvents_unmatchedList e p _ (h.filter _)]
  have hmemf : e ∈ reg.filter (fun x => !scan.contains x) ↔ e ∈ reg ∧ e ∉ scan := by
    simp [List.mem_filter, List.elem_iff]
  by_cases hr : e ∈ reg <;> by_cases hs : e ∈ scan <;>
    simp [muEvents, hr, hs, hmemf]

/-- Membership in the registry after a cycle is exactly membership in that
cycle's scan. -/
theorem regAfter_mem (reg scan : List Nat) (e : Nat) :
    (e ∈ (foldAdd reg scan).filter (fun x => (foldAdd [] scan).contains x)) ↔ e ∈ scan := by
  simp [List.mem_filter, mem_foldAdd, List.elem_iff]
  tauto

theorem regAfter_nodup (reg scan : List Nat) (h : reg.Nodup) :
    ((foldAdd reg scan).filter (fun x => (foldAdd [] scan).contains x)).Nodup :=
  (foldAdd_nodup h).filter _

theorem runScans_alt (e : Nat) (scans : List (List Nat × Nat)) :
    ∀ reg m : List Nat, reg.Nodup →
      altFrom (if e ∈ reg then false else true)
        (muEvents e (runScans ⟨none, reg, m⟩ scans).2) := by
  induction scans with
  | nil => intro reg m _; simp [runScans, muEvents, altFrom]
  | cons sp rest ih =>
    intro reg m hnodup
    obtain ⟨scan, p⟩ := sp
    rw [runScans, updateScan_ok]
    simp only
    rw [muEvents_append, muEvents_cycle e p reg scan hnodup]
    have hnext := ih ((foldAdd reg scan).filter (fun x => (foldAdd [] scan).contains x))
      (foldAdd [] scan) (regAfter_nodup reg scan hnodup)
    have hcond : (if e ∈ (foldAdd reg scan).filter (fun x => (foldAdd [] scan).contains x)
        then false else true) = (if e ∈ scan then false else true) := by
      by_cases hs : e ∈ scan
      · rw [if_pos ((regAfter_mem reg scan e).mpr hs), if_pos hs]
      · rw [if_neg (fun hm => hs ((regAfter_mem reg scan e).mp hm)), if_neg hs]
    rw [hcond] at hnext
    by_cases hr : e ∈ reg <;> by_cases hs : e ∈ scan <;>
      simp only [if_pos, if_neg, hr, hs, if_true, if_false, List.nil_append,
        List.cons_append, List.singleton_append] <;>
      first
        | (exact (by simpa [hs] using hnext))
        | (refine ⟨rfl, ?_⟩
           simpa [hs, altFrom] using hnext)

/-- A run of `update(store, params)` calls is the run of their scan lists. -/
theorem runUpdates_eq_runScans (q : Query) (calls : List (List Entity × Nat)) :
    ∀ st : ObserverState, runUpdates q st calls =
      runScans st (calls.map (fun c => ((q.queryList c.1).map Entity.id, c.2))) := by
  intro st
  induction calls generalizing st with
  | nil => rfl
  | cons c rest ihc =>
    obtain ⟨store, p⟩ := c
    rw [List.map_cons, runUpdates, runScans]
    unfold Observer.update
    rcases hsc : Observer.updateScan st ((q.queryList store).map Entity.id) p with ⟨st1, r⟩
    cases r <;> simp [hsc, ihc st1]

/-- Every state reached by a run of update calls from an idle observer with
a duplicate-free registry is again idle with a duplicate-free registry. -/
theorem runScans_state (scans : List (List Nat × Nat)) :
    ∀ reg m : List Nat, reg.Nodup →
      (runScans ⟨none, reg, m⟩ scans).1.updating = none ∧
      (runScans ⟨none, reg, m⟩ scans).1.registry.Nodup := by
  induction scans with
  | nil => intro reg m h; exact ⟨rfl, h⟩
  | cons sp rest ih =>
    intro reg m h
    obtain ⟨scan, p⟩ := sp
    rw [runScans, updateScan_ok]
    simp only
    exact ih _ _ (regAfter_nodup reg scan h)

/-- The `matched`/`unmatched` events concerning one entity, with their
payloads, in firing order. -/
def muEventList (e : Nat) (tr : List Event) : List Event :=
  tr.filter fun ev =>
    match ev with
    | Event.matched x _ => decide (x = e)
    | Event.unmatched x _ => decide (x = e)
    | _ => false

theorem muEventList_append (e : Nat) (tr1 tr2 : List Event) :
    muEventList e (tr1 ++ tr2) = muEventList e tr1 ++ muEventList e tr2 := by
  simp [muEventList]

theorem muEventList_scanEvents (e p : Nat) (scan : List Nat) (reg : List Nat) :
    muEventList e (scanEvents p reg scan) =
      if e ∈ reg then [] else if e ∈ scan then [Event.matched e p] else [] := by
  induction scan generalizing reg with
  | nil => simp [scanEvents, muEventList]
  | cons s rest ih =>
    rw [scanEvents, muEventList_append, muEventList_append, ih]
    by_cases hse : s = e
    · subst hse
      by_cases hr : s ∈ reg
      · simp [hr, mem_addToSet, muEventList]
      · simp [hr, mem_addToSet, muEventList]
    · have hmem : e ∈ addToSet reg s ↔ e ∈ reg := by
        rw [mem_addToSet]
        constructor
        · rintro (h | rfl)
          · exact h
          · exact absurd rfl hse
        · exact Or.inl
      by_cases hr : e ∈ reg
      · simp [hr, hmem, muEventList, hse, Ne.symm hse]
      · by_cases hs : e ∈ rest
        · simp [hr, hmem, hs, muEventList, hse, Ne.symm hse]
        · simp [hr, hmem, hs, muEventList, hse, Ne.symm hse]

theorem muEventList_unmatchedList (e p : Nat) (l : List Nat) (h : l.Nodup) :
    muEventList e (l.map (fun x => Event.unmatched x p)) =
      if e ∈ l then [Event.unmatched e p] else [] := by
  induction l with
  | nil => simp [muEventList]
  | cons x rest ih =>
    have hrest := ih (List.Nodup.of_cons h)
    by_cases hxe : x = e
    · subst hxe
      have hnotin : x ∉ rest := (List.nodup_cons.mp h).1
      rw [if_neg hnotin] at hrest
      simp [muEventList, List.filter_cons] at hrest ⊢
      simpa [muEventList] using hrest
    · rw [List.map_cons]
      have hcons : muEventList e (Event.unmatched x p ::
          rest.map (fun y => Event.unmatched y p)) =
          muEventList e (rest.map (fun y => Event.unmatched y p)) := by
        simp [muEventList, List.filter_cons, hxe]
      rw [hcons, hrest]
      by_cases hs : e ∈ rest
      · simp [hs, hxe, Ne.symm hxe]
      · simp [hs, hxe, Ne.symm hxe]

/-- The matched/unmatched events (with payloads) one cycle fires for a fixed
entity: exactly one fresh `matched` on entry, exactly one fresh `unmatched`
on exit, nothing when the match status does not cross the boundary. -/
theorem muEventList_cycle (e p : Nat) (reg scan : List Nat) (h : reg.Nodup) :
    muEventList e (specCycleEvents reg scan p) =
      (if e ∈ reg then (if e ∈ scan then [] else [Event.unmatched e p])
        else (if e ∈ scan then [Event.matched e p] else [])) := by
  unfold specCycleEvents
  rw [muEventList_append, muEventList_append, muEventList_append,
    muEventList_scanEvents, muEventList_unmatchedList e p _ (h.filter _)]
  have hmemf : e ∈ reg.filter (fun x => !scan.contains x) ↔ e ∈ reg ∧ e ∉ scan := by
    simp [List.mem_filter, List.elem_iff]
  by_cases hr : e ∈ reg <;> by_cases hs : e ∈ scan <;>
    simp [muEventList, hr, hs, hmemf]

/-- C2: over any sequence of `update` calls on one observer (from creation),
the `matched`/`unmatched` events for any fixed entity strictly alternate
starting with `matched` — between two consecutive `matched` events there is
exactly one `unmatched` — and each boundary crossing fires a fresh event
with no coalescing: whatever state the observer has reached, the next
`update` call fires exactly one `matched` for an entity that enters the
match set, exactly one `unmatched` for one that leaves it, and no
matched/unmatched event for one that stays on its side; afterwards the
entity is registered iff that call matched it. -/
theorem observer_matched_unmatched_alternate (q : Query)
    (calls : List (List Entity × Nat)) (e : Nat) :
    altFrom true (muEvents e (runUpdates q ObserverState.init calls).2) ∧
    ∀ (store : List Entity) (p : Nat),
      ∃ (st' : ObserverState) (tr : List Event),
        Observer.update q store (runUpdates q ObserverState.init calls).1 p =
          (st', Except.ok tr) ∧
        muEventList e tr =
          (if e ∈ (runUpdates q ObserverState.init calls).1.registry then
            (if e ∈ (q.queryList store).map Entity.id then [] else [Event.unmatched e p])
          else
            (if e ∈ (q.queryList store).map Entity.id then [Event.matched e p] else [])) ∧
        (e ∈ st'.registry ↔ e ∈ (q.queryList store).map Entity.id) := by
  rw [show ObserverState.init = (⟨none, [], []⟩ : ObserverState) from rfl,
    runUpdates_eq_runScans]
  constructor
  · simpa using runScans_alt e _ [] [] List.nodup_nil
  · intro store p
    obtain ⟨hupd, hnd⟩ :=
      runScans_state (calls.map (fun c => ((q.queryList c.1).map Entity.id, c.2)))
        [] [] List.nodup_nil
    rcases hsteq : (runScans ⟨none, [], []⟩
        (calls.map (fun c => ((q.queryList c.1).map Entity.id, c.2)))).1 with ⟨u, reg', m'⟩
    rw [hsteq] at hupd hnd
    simp only at hupd hnd
    subst hupd
    rw [hsteq]
    refine ⟨⟨none,
        (foldAdd reg' ((q.queryList store).map Entity.id)).filter
          (fun x => (foldAdd [] ((q.queryList store).map Entity.id)).contains x),
        foldAdd [] ((q.queryList store).map Entity.id)⟩,
      specCycleEvents reg' ((q.queryList store).map Entity.id) p, ?_, ?_, ?_⟩
    · unfold Observer.update
      rw [updateScan_ok]
    · rw [muEventList_cycle e p reg' ((q.queryList store).map Entity.id) hnd]
    · exact regAfter_mem reg' _ e

/-! ## System resource lifecycle (`system.ts`, `attachSystem`)

`attachSystem` wires observer events to resource management: the `matched`
handler creates a per-entity resource into the `each` map (a JS `Map` from
entity to resource), the `unmatched` handler destroys and deletes it (after
an existence check), the `updated` handler looks it up (after the same
check). We model the configuration in which a per-entity (`each`) factory
and an `onUpdated` callback are configured — the configuration C3 is about.
Resources are given fresh ids from a counter, and creations/destructions are
counted. The handlers never touch the observer's own state, so running them
over the emitted event list after the observer cycle is equivalent to the
source's interleaved emission. -/

/-- The mutable state of one attached system handle. -/
structure SystemState where
  obs : ObserverState
  each : List (Nat × Nat)
  nextRes : Nat
  created : Nat
  destroyed : Nat
deriving DecidableEq, Repr

/-- A freshly attached system: idle observer, no per-entity resources. -/
def SystemState.init : SystemState :=
  ⟨ObserverState.init, [], 0, 0, 0⟩

/-- JS `Map.set`: replace in place when the key exists, else append. -/
def mapSet : List (Nat × Nat) → Nat → Nat → List (Nat × Nat)
  | [], k, v => [(k, v)]
  | (k', v') :: rest, k, v =>
    if k' = k then (k, v) :: rest else (k', v') :: mapSet rest k v

/-- JS `Map.delete`: remove the entry with the given key, if present. -/
def mapDelete : List (Nat × Nat) → Nat → List (Nat × Nat)
  | [], _ => []
  | (k', v') :: rest, k =>
    if k' = k then rest else (k', v') :: mapDelete rest k

/-- The observer-event handlers installed by `attachSystem` (per-entity
factory and `onUpdated` configured): `matched` creates into `each`,
`updated` requires the resource to exist, `unmatched` requires it, destroys
it and deletes it; `preUpdate`/`postUpdate` only run user callbacks. -/
def handleEvent (st : SystemState) : Event → Except String SystemState
  | Event.preUpdate _ => .ok st
  | Event.matched e _ =>
    .ok { st with
          each := mapSet st.each e st.nextRes
          nextRes := st.nextRes + 1
          created := st.created + 1 }
  | Event.updated e _ =>
    if e ∈ st.each.map Prod.fst then .ok st
    else .error "Each resource not found for updated entity"
  | Event.unmatched e _ =>
    if e ∈ st.each.map Prod.fst then
      .ok { st with
            each := mapDelete st.each e
            destroyed := st.destroyed + 1 }
    else .error "Each resource not found for unmatched entity"
  | Event.postUpdate _ => .ok st

/-- Process fired events in emission order, stopping at the first throw. -/
def handleEvents : SystemState → List Event → Except String SystemState
  | st, [] => .ok st
  | st, ev :: rest =>
    match handleEvent st ev with
    | .ok st1 => handleEvents st1 rest
    | .error msg => .error msg

/-- One `handle.update(params)` call: drive the observer cycle, then account
for the resource effects of the events it fired. -/
def systemUpdate (q : Query) (store : List Entity) (st : SystemState) (p : Nat) :
    Except String SystemState :=
  match Observer.update q store st.obs p with
  | (obs1, .ok tr) => handleEvents { st with obs := obs1 } tr
  | (_, .error msg) => .error msg

/-- A sequence of `handle.update` calls from attachment. -/
def sysRun (q : Query) : SystemState → List (List Entity × Nat) → Except String SystemState
  | st, [] => .ok st
  | st, (store, p) :: rest =>
    match systemUpdate q store st p with
    | .ok st1 => sysRun q st1 rest
    | .error msg => .error msg

theorem handleEvents_append (l1 l2 : List Event) :
    ∀ st : SystemState, handleEvents st (l1 ++ l2) =
      (handleEvents st l1).bind (fun st1 => handleEvents st1 l2) := by
  induction l1 with
  | nil => intro st; rfl
  | cons ev l1 ih =>
    intro st
    rw [List.cons_append, handleEvents, handleEvents]
    cases handleEvent st ev with
    | ok st1 => exact ih st1
    | error msg => rfl

theorem handleEvents_singleton (st : SystemState) (ev : Event) :
    handleEvents st [ev] = handleEvent st ev := by
  rw [handleEvents]
  cases handleEvent st ev <;> rfl

theorem handleEvents_cons_ok {st st1 : SystemState} {ev : Event}
    (h : handleEvent st ev = .ok st1) (l : List Event) :
    handleEvents st (ev :: l) = handleEvents st1 l := by
  rw [handleEvents, h]

theorem addToSet_of_mem {s : List Nat} {x : Nat} (h : x ∈ s) :
    addToSet s x = s := by
  unfold addToSet
  rw [if_pos (by simpa [List.elem_iff] using h)]

theorem addToSet_of_not_mem {s : List Nat} {x : Nat} (h : x ∉ s) :
    addToSet s x = s ++ [x] := by
  unfold addToSet
  rw [if_neg (by simpa [List.elem_iff] using h)]

theorem mapSet_of_not_mem {each : List (Nat × Nat)} {e : Nat}
    (h : e ∉ each.map Prod.fst) (v : Nat) :
    mapSet each e v = each ++ [(e, v)] := by
  induction each with
  | nil => rfl
  | cons kv rest ih =>
    obtain ⟨k, v'⟩ := kv
    simp only [List.map_cons, List.mem_cons] at h
    push_neg at h
    rw [mapSet, if_neg (Ne.symm h.1), ih h.2, List.cons_append]

theorem keys_filter (each : List (Nat × Nat)) (P : Nat → Bool) :
    (each.filter (fun kv => P kv.1)).map Prod.fst = (each.map Prod.fst).filter P := by
  induction each with
  | nil => rfl
  | cons kv rest ih =>
    obtain ⟨k, v⟩ := kv
    by_cases hP : P k
    · simp [List.filter_cons, hP, ih]
    · simp [List.filter_cons, hP, ih]

/-- The removal pass of `finishUpdate` only ever removes entities that were
in the registry at cycle start and were not scanned. -/
theorem removed_eq (reg scan : List Nat) :
    (foldAdd reg scan).filter (fun e => !(foldAdd [] scan).contains e) =
      reg.filter (fun e => !scan.contains e) := by
  obtain ⟨ext, hdecomp, hsub⟩ := foldAdd_decomp scan reg
  rw [hdecomp, List.filter_append]
  have hextnil : ext.filter (fun e => !(foldAdd [] scan).contains e) = [] := by
    rw [List.filter_eq_nil_iff]
    intro a ha
    simp [List.elem_iff, mem_foldAdd, hsub a ha]
  rw [hextnil, List.append_nil]
  apply List.filter_congr
  intro a _
  simp [List.elem_iff, mem_foldAdd]

/-- The scan-phase events (`matched`/`updated` per scanned entity) are
handled without error: every new entity gets a fresh resource appended to
the `each` map, whose key list tracks the observer's growing registry. -/
theorem handleEvents_scan (p : Nat) (scan : List Nat) :
    ∀ (obs : ObserverState) (each : List (Nat × Nat)) (nr cr ds : Nat),
      ∃ each' nr' cr',
        handleEvents ⟨obs, each, nr, cr, ds⟩ (scanEvents p (each.map Prod.fst) scan) =
          .ok ⟨obs, each', nr', cr', ds⟩ ∧
        each'.map Prod.fst = foldAdd (each.map Prod.fst) scan ∧
        cr' + (each.map Prod.fst).length = cr + (foldAdd (each.map Prod.fst) scan).length := by
  induction scan with
  | nil =>
    intro obs each nr cr ds
    exact ⟨each, nr, cr, rfl, rfl, rfl⟩
  | cons e rest ih =>
    intro obs each nr cr ds
    by_cases he : e ∈ each.map Prod.fst
    · have hc : (each.map Prod.fst).contains e = true := by simpa [List.elem_iff] using he
      rw [scanEvents, if_pos hc, addToSet_of_mem he]
      obtain ⟨each', nr', cr', hrun, hkeys, hcnt⟩ := ih obs each nr cr ds
      refine ⟨each', nr', cr', ?_, by rw [foldAdd, addToSet_of_mem he]; exact hkeys, ?_⟩
      · have hu : handleEvent ⟨obs, each, nr, cr, ds⟩ (Event.updated e p) =
            .ok ⟨obs, each, nr, cr, ds⟩ := by
          simp [handleEvent, he]
        simp only [List.cons_append, List.nil_append]
        rw [handleEvents_cons_ok hu]
        exact hrun
      · rw [foldAdd, addToSet_of_mem he]
        exact hcnt
    · have hc : ¬((each.map Prod.fst).contains e = true) := by
        simpa [List.elem_iff] using he
      rw [scanEvents, if_neg hc]
      obtain ⟨each', nr', cr', hrun, hkeys, hcnt⟩ :=
        ih obs (each ++ [(e, nr)]) (nr + 1) (cr + 1) ds
      have hkeys1 : (each ++ [(e, nr)]).map Prod.fst = each.map Prod.fst ++ [e] := by
        simp
      refine ⟨each', nr', cr', ?_, ?_, ?_⟩
      · have hm : handleEvent ⟨obs, each, nr, cr, ds⟩ (Event.matched e p) =
            .ok ⟨obs, each ++ [(e, nr)], nr + 1, cr + 1, ds⟩ := by
          simp [handleEvent, mapSet_of_not_mem he]
        have hu : handleEvent ⟨obs, each ++ [(e, nr)], nr + 1, cr + 1, ds⟩
            (Event.updated e p) = .ok ⟨obs, each ++ [(e, nr)], nr + 1, cr + 1, ds⟩ := by
          simp [handleEvent]
        simp only [List.cons_append, List.nil_append]
        rw [handleEvents_cons_ok hm, handleEvents_cons_ok hu]
        rw [hkeys1] at hrun
        rw [show addToSet (each.map Prod.fst) e = each.map Prod.fst ++ [e] from
          addToSet_of_not_mem he]
        exact hrun
      · rw [foldAdd, addToSet_of_not_mem he, ← hkeys1]
        exact hkeys
      · rw [foldAdd, addToSet_of_not_mem he]
        rw [hkeys1] at hcnt
        simp only [List.length_append, List.length_cons, List.length_nil] at hcnt ⊢
        omega

/-- Events that never mention key `k` leave a leading `(k, v)` entry of the
`each` map untouched. -/
theorem handleEvents_frame (k v : Nat) :
    ∀ (l : List Event)
      (hall : ∀ ev ∈ l, ∃ e2 p2, ev = Event.unmatched e2 p2 ∧ e2 ≠ k)
      (obs : ObserverState) (rest : List (Nat × Nat)) (nr cr ds : Nat),
      handleEvents ⟨obs, (k, v) :: rest, nr, cr, ds⟩ l =
        (handleEvents ⟨obs, rest, nr, cr, ds⟩ l).map
          (fun st => ⟨st.obs, (k, v) :: st.each, st.nextRes, st.created, st.destroyed⟩) := by
  intro l
  induction l with
  | nil => intro _ obs rest nr cr ds; rfl
  | cons ev l ih =>
    intro hall obs rest nr cr ds
    obtain ⟨e2, p2, rfl, hne⟩ := hall ev (List.mem_cons_self ev l)
    have hall' := fun ev hev => hall ev (List.mem_cons_of_mem _ hev)
    rw [handleEvents, handleEvents]
    by_cases hmem : e2 ∈ rest.map Prod.fst
    · have h1 : handleEvent ⟨obs, (k, v) :: rest, nr, cr, ds⟩ (Event.unmatched e2 p2) =
          .ok ⟨obs, (k, v) :: mapDelete rest e2, nr, cr, ds + 1⟩ := by
        have : e2 ∈ ((k, v) :: rest).map Prod.fst := by
          simp [List.mem_cons, hmem]
        simp only [handleEvent, if_pos this]
        rw [show mapDelete ((k, v) :: rest) e2 = (k, v) :: mapDelete rest e2 by
          rw [mapDelete, if_neg (Ne.symm hne)]]
      have h2 : handleEvent ⟨obs, rest, nr, cr, ds⟩ (Event.unmatched e2 p2) =
          .ok ⟨obs, mapDelete rest e2, nr, cr, ds + 1⟩ := by
        simp only [handleEvent, if_pos hmem]
      rw [h1, h2]
      exact ih hall' obs (mapDelete rest e2) nr cr (ds + 1)
    · have hnot : e2 ∉ ((k, v) :: rest).map Prod.fst := by
        simp only [List.map_cons, List.mem_cons]
        push_neg
        exact ⟨hne, hmem⟩
      have h1 : handleEvent ⟨obs, (k, v) :: rest, nr, cr, ds⟩ (Event.unmatched e2 p2) =
          .error "Each resource not found for unmatched entity" := by
        simp only [handleEvent, if_neg hnot]
      have h2 : handleEvent ⟨obs, rest, nr, cr, ds⟩ (Event.unmatched e2 p2) =
          .error "Each resource not found for unmatched entity" := by
        simp only [handleEvent, if_neg hmem]
      rw [h1, h2]
      rfl

/-- The removal-phase events destroy and delete exactly the resources of the
entities filtered out, leaving the surviving entries in place. -/
theorem handleEvents_unmatched (p : Nat) :
    ∀ (each : List (Nat × Nat)) (P : Nat → Bool)
      (hnd : (each.map Prod.fst).Nodup) (obs : ObserverState) (nr cr ds : Nat),
      handleEvents ⟨obs, each, nr, cr, ds⟩
          (((each.map Prod.fst).filter (fun x => !P x)).map
            (fun e2 => Event.unmatched e2 p)) =
        .ok ⟨obs, each.filter (fun kv => P kv.1), nr, cr,
          ds + ((each.map Prod.fst).filter (fun x => !P x)).length⟩ := by
  intro each
  induction each with
  | nil => intro P _ obs nr cr ds; rfl
  | cons kv rest ih =>
    obtain ⟨k, v⟩ := kv
    intro P hnd obs nr cr ds
    rw [List.map_cons] at hnd
    have hknotin : k ∉ rest.map Prod.fst := (List.nodup_cons.mp hnd).1
    have hndrest : (rest.map Prod.fst).Nodup := (List.nodup_cons.mp hnd).2
    by_cases hP : P k
    · have hfk : (((k, v) :: rest).map Prod.fst).filter (fun x => !P x) =
          (rest.map Prod.fst).filter (fun x => !P x) := by
        simp [List.filter_cons, hP]
      rw [hfk]
      have hall : ∀ ev ∈ ((rest.map Prod.fst).filter (fun x => !P x)).map
          (fun e2 => Event.unmatched e2 p),
          ∃ e2 p2, ev = Event.unmatched e2 p2 ∧ e2 ≠ k := by
        intro ev hev
        rw [List.mem_map] at hev
        obtain ⟨e2, he2, rfl⟩ := hev
        refine ⟨e2, p, rfl, ?_⟩
        intro heq
        exact hknotin (heq ▸ (List.mem_filter.mp he2).1)
      rw [handleEvents_frame k v _ hall obs rest nr cr ds, ih P hndrest obs nr cr ds]
      simp [List.filter_cons, hP, Except.map]
    · have hfk : (((k, v) :: rest).map Prod.fst).filter (fun x => !P x) =
          k :: (rest.map Prod.fst).filter (fun x => !P x) := by
        simp [List.filter_cons, hP]
      have h1 : handleEvent ⟨obs, (k, v) :: rest, nr, cr, ds⟩ (Event.unmatched k p) =
          .ok ⟨obs, rest, nr, cr, ds + 1⟩ := by
        have hmem : k ∈ ((k, v) :: rest).map Prod.fst := by simp
        simp only [handleEvent, if_pos hmem]
        rw [show mapDelete ((k, v) :: rest) k = rest by rw [mapDelete, if_pos rfl]]
      rw [hfk, List.map_cons, handleEvents_cons_ok h1, ih P hndrest obs nr cr (ds + 1)]
      simp only [List.filter_cons, hP, Bool.false_eq_true, if_false, List.length_cons]
      rw [show ds + 1 + ((rest.map Prod.fst).filter (fun x => !P x)).length =
        ds + (((rest.map Prod.fst).filter (fun x => !P x)).length + 1) by omega]

/-- Handling all events of one cycle: no handler throws, the `each` map ends
keyed exactly by the observer's new registry, creations grew by the number of
newly matched entities and destructions by the number of removed ones. -/
theorem handleEvents_cycle (p : Nat) (scan : List Nat) (obs : ObserverState)
    (each : List (Nat × Nat)) (nr cr ds : Nat) (hnd : (each.map Prod.fst).Nodup) :
    ∃ each' nr' cr',
      handleEvents ⟨obs, each, nr, cr, ds⟩ (specCycleEvents (each.map Prod.fst) scan p) =
        .ok ⟨obs, each', nr', cr',
          ds + ((foldAdd (each.map Prod.fst) scan).filter
            (fun e => !(foldAdd [] scan).contains e)).length⟩ ∧
      each'.map Prod.fst =
        (foldAdd (each.map Prod.fst) scan).filter (fun e => (foldAdd [] scan).contains e) ∧
      cr' + (each.map Prod.fst).length = cr + (foldAdd (each.map Prod.fst) scan).length := by
  obtain ⟨each1, nr1, cr1, hrun1, hkeys1, hcnt1⟩ := handleEvents_scan p scan obs each nr cr ds
  have hnd1 : (each1.map Prod.fst).Nodup := by
    rw [hkeys1]
    exact foldAdd_nodup hnd
  have hunm := handleEvents_unmatched p each1 (fun x => (foldAdd [] scan).contains x)
    hnd1 obs nr1 cr1 ds
  refine ⟨each1.filter (fun kv => (foldAdd [] scan).contains kv.1), nr1, cr1, ?_, ?_, ?_⟩
  · unfold specCycleEvents
    simp only [List.append_assoc, List.cons_append, List.nil_append]
    rw [handleEvents_cons_ok (show handleEvent ⟨obs, each, nr, cr, ds⟩ (Event.preUpdate p) =
      .ok ⟨obs, each, nr, cr, ds⟩ from rfl)]
    rw [handleEvents_append, hrun1]
    show handleEvents ⟨obs, each1, nr1, cr1, ds⟩ _ = _
    rw [← removed_eq (each.map Prod.fst) scan, ← hkeys1]
    rw [handleEvents_append, hunm]
    show handleEvents _ [Event.postUpdate p] = _
    rw [handleEvents_singleton]
    rw [hkeys1]
    rfl
  · rw [keys_filter, hkeys1]
  · exact hcnt1

/-- One `handle.update` call from a state satisfying the resource invariant
succeeds and re-establishes the invariant. -/
theorem systemUpdate_ok (q : Query) (store : List Entity) (p : Nat)
    (m : List Nat) (each : List (Nat × Nat)) (nr cr ds : Nat)
    (hnd : (each.map Prod.fst).Nodup) (hcnt : cr = ds + each.length) :
    ∃ st' : SystemState,
      systemUpdate q store ⟨⟨none, each.map Prod.fst, m⟩, each, nr, cr, ds⟩ p = .ok st' ∧
      st'.obs.updating = none ∧
      st'.each.map Prod.fst = st'.obs.registry ∧
      st'.obs.registry.Nodup ∧
      st'.created = st'.destroyed + st'.each.length := by
  obtain ⟨each', nr', cr', hrun, hkeys', hcnt'⟩ :=
    handleEvents_cycle p ((q.queryList store).map Entity.id)
      ⟨none, (foldAdd (each.map Prod.fst) ((q.queryList store).map Entity.id)).filter
        (fun e => (foldAdd [] ((q.queryList store).map Entity.id)).contains e),
        foldAdd [] ((q.queryList store).map Entity.id)⟩
      each nr cr ds hnd
  refine ⟨⟨⟨none,
      (foldAdd (each.map Prod.fst) ((q.queryList store).map Entity.id)).filter
        (fun e => (foldAdd [] ((q.queryList store).map Entity.id)).contains e),
      foldAdd [] ((q.queryList store).map Entity.id)⟩,
    each', nr', cr',
    ds + ((foldAdd (each.map Prod.fst) ((q.queryList store).map Entity.id)).filter
      (fun e => !(foldAdd [] ((q.queryList store).map Entity.id)).contains e)).length⟩,
    ?_, rfl, ?_, ?_, ?_⟩
  · unfold systemUpdate Observer.update
    rw [updateScan_ok]
    exact hrun
  · simpa using hkeys'
  · simp only
    exact (foldAdd_nodup hnd).filter _
  · simp only
    have hlen : each'.length =
        ((foldAdd (each.map Prod.fst) ((q.queryList store).map Entity.id)).filter
          (fun e => (foldAdd [] ((q.queryList store).map Entity.id)).contains e)).length := by
      rw [← hkeys', List.length_map]
    have hsplit :=
      List.length_eq_length_filter_add
        (l := foldAdd (each.map Prod.fst) ((q.queryList store).map Entity.id))
        (fun e => (foldAdd [] ((q.queryList store).map Entity.id)).contains e)
    have heach : (each.map Prod.fst).length = each.length := List.length_map _ _
    omega

/-- C3: over any sequence of `update` calls on an attached system with a
per-entity factory, no call throws, and afterwards an entity has a live
per-entity resource iff it is in the observer's registry, no entity has two
(the resource map's keys are exactly the registry, without duplicates), and
creations minus destructions equals the registry's size. -/
theorem system_each_resource_invariant (q : Query) (calls : List (List Entity × Nat)) :
    ∃ st : SystemState, sysRun q SystemState.init calls = .ok st ∧
      st.each.map Prod.fst = st.obs.registry ∧
      st.obs.registry.Nodup ∧
      st.created = st.destroyed + st.obs.registry.length := by
  suffices h : ∀ (calls : List (List Entity × Nat)) (st : SystemState),
      st.obs.updating = none →
      st.each.map Prod.fst = st.obs.registry →
      st.obs.registry.Nodup →
      st.created = st.destroyed + st.each.length →
      ∃ st' : SystemState, sysRun q st calls = .ok st' ∧
        st'.obs.updating = none ∧
        st'.each.map Prod.fst = st'.obs.registry ∧
        st'.obs.registry.Nodup ∧
        st'.created = st'.destroyed + st'.each.length by
    obtain ⟨st', hrun, _, hk, hn, hc⟩ :=
      h calls SystemState.init rfl rfl List.nodup_nil rfl
    refine ⟨st', hrun, hk, hn, ?_⟩
    rw [hc, ← hk, List.length_map]
  intro calls
  induction calls with
  | nil =>
    intro st h1 h2 h3 h4
    exact ⟨st, rfl, h1, h2, h3, h4⟩
  | cons c rest ih =>
    intro st h1 h2 h3 h4
    obtain ⟨store, p⟩ := c
    obtain ⟨obs, each, nr, cr, ds⟩ := st
    simp only at h1 h2 h3 h4
    obtain ⟨updating, reg, mset⟩ := obs
    simp only at h1
    subst h1
    simp only at h2 h3
    subst h2
    have hcnt : cr = ds + each.length := by
      simpa [List.length_map] using h4
    obtain ⟨st1, hupd, hinv1, hinv2, hinv3, hinv4⟩ :=
      systemUpdate_ok q store p mset each nr cr ds h3 hcnt
    obtain ⟨st', hrun', hr1, hr2, hr3, hr4⟩ := ih st1 hinv1 hinv2 hinv3 hinv4
    refine ⟨st', ?_, hr1, hr2, hr3, hr4⟩
    rw [sysRun, hupd]
    exact hrun'

/-! ## `stop()` of a system handle (`system.ts`)

The source `stop` is, in order: `observer.stop()` (which `offAll`s every
event stream, i.e. detaches all listeners), then — when an `each` config
exists — `eachConfig.destroy?.(...)` for every live per-entity resource in
map iteration order, then `await destroyShared?.()`. We record the externally
visible actions as a trace. -/

/-- One externally visible action of `stop()`. -/
inductive StopAction where
  | detachAll
  | destroyEach (resource : Nat)
  | destroySharedRes
deriving DecidableEq, Repr

/-- The action trace of `stop()` from `system.ts` (`hasEach`: an `each`
config with a `destroy` is present; `hasShared`: a shared config with a
`destroy` is present). -/
def systemStop (each : List (Nat × Nat)) (hasEach hasShared : Bool) : List StopAction :=
  [StopAction.detachAll]
    ++ (if hasEach then each.map (fun kv => StopAction.destroyEach kv.2) else [])
    ++ (if hasShared then [StopAction.destroySharedRes] else [])

/-- The order claimed by the spec sentence: per-entity destroys, then the
shared destroy, then detaching the observer listeners. -/
def specClaimedStop (each : List (Nat × Nat)) (hasEach hasShared : Bool) : List StopAction :=
  (if hasEach then each.map (fun kv => StopAction.destroyEach kv.2) else [])
    ++ (if hasShared then [StopAction.destroySharedRes] else [])
    ++ [StopAction.detachAll]

/-- C7 counterexample: for a handle with one live per-entity resource and a
shared destroy, the source's `stop()` trace detaches the observer listeners
first — not last as the claim states. -/
theorem system_stop_claimed_order_false :
    systemStop [(1, 5)] true true ≠ specClaimedStop [(1, 5)] true true ∧
    systemStop [(1, 5)] true true =
      [StopAction.detachAll, StopAction.destroyEach 5, StopAction.destroySharedRes] := by
  decide

/-- C7 (amended): `stop()` first detaches all observer listeners, then
destroys every live per-entity resource, then destroys the shared resource;
the shared destroy still runs exactly once, after every per-entity destroy. -/
theorem system_stop_order (each : List (Nat × Nat)) :
    systemStop each true true =
      [StopAction.detachAll] ++ each.map (fun kv => StopAction.destroyEach kv.2)
        ++ [StopAction.destroySharedRes] ∧
    (systemStop each true true).count StopAction.destroySharedRes = 1 ∧
    (systemStop each true true).getLast? = some StopAction.destroySharedRes := by
  refine ⟨rfl, ?_, ?_⟩
  · simp only [systemStop, if_true]
    rw [List.count_append, List.count_append]
    have h1 : ([StopAction.detachAll].count StopAction.destroySharedRes) = 0 := by decide
    have h2 : ((each.map (fun kv => StopAction.destroyEach kv.2)).count
        StopAction.destroySharedRes) = 0 := by
      rw [List.count_eq_zero]
      intro hmem
      rw [List.mem_map] at hmem
      obtain ⟨kv, _, hkv⟩ := hmem
      exact StopAction.noConfusion hkv
    rw [h1, h2]
    decide
  · simp only [systemStop, if_true]
    rw [List.getLast?_append]
    rfl

/-! ## Partial failure during schedule construction (`schedule.ts`,
`Schedule.from`; also `scheduleSystems`)

Construction attaches every unit with `Promise.all(systems.map(async
(system) => [system, await ...attach...]))`. Every attachment's shared
`create` runs (the promises are independent and are not cancelled); if any
of them throws, `Promise.all` rejects with that error and nothing else
happens — in particular no `stop()`/`destroy` runs for the siblings that
attached successfully. A system is modelled by whether its shared factory
throws. -/

/-- The observable outcome of the attachment phase of schedule
construction. -/
structure AttachOutcome where
  result : Except String (List Nat)
  createdShared : List Nat
  destroyedShared : List Nat
deriving Repr

/-- `Schedule.from` / `scheduleSystems` attachment phase over systems
indexed `0, 1, …` (`fails[i] = true` iff system `i`'s shared factory
throws): every non-throwing factory creates its shared resource, any throw
rejects the whole construction, and no destroy callback runs. -/
def scheduleAttach (fails : List Bool) : AttachOutcome :=
  let created := ((List.range fails.length).zip fails).filter (fun p => !p.2) |>.map Prod.fst
  { result :=
      if fails.any (fun b => b) then .error "shared resource creation failed"
      else .ok created
    createdShared := created
    destroyedShared := [] }

/-- C6 counterexample: one sibling attaches successfully (its shared
resource is created), a second system's factory throws — construction fails,
yet the sibling's already-created shared resource is not released (no
destroy ran). -/
theorem schedule_attach_leaks_counterexample :
    (scheduleAttach [false, true]).result = .error "shared resource creation failed" ∧
    0 ∈ (scheduleAttach [false, true]).createdShared ∧
    0 ∉ (scheduleAttach [false, true]).destroyedShared :=
  ⟨rfl, by decide, by decide⟩

/-- C6 (amended): when any shared factory throws during construction the
error propagates to the caller and no schedule is produced, but the shared
resources already created for sibling units are not released — construction
runs no destroy callback at all. -/
theorem schedule_attach_failure_no_release (fails : List Bool)
    (h : fails.any (fun b => b) = true) :
    (scheduleAttach fails).result = .error "shared resource creation failed" ∧
    (scheduleAttach fails).destroyedShared = [] := by
  unfold scheduleAttach
  simp [h]

/-- Witness for the amended C6 at the counterexample's input. -/
theorem schedule_attach_failure_no_release_witness :
    (scheduleAttach [false, true]).result = .error "shared resource creation failed" ∧
    (scheduleAttach [false, true]).destroyedShared = [] :=
  schedule_attach_failure_no_release [false, true] (by decide)

/-! ## The schedule constructor (`schedule.ts`, `Schedule` private constructor)

The constructor peels layers: while systems remain, collect every system
whose remaining-dependency count is zero into the next step (map iteration
order), remove them, and decrement the count of each remaining system once
per occurrence of a just-removed dependency in its `deps` array (via the
dependers map); an empty step with systems remaining throws
`"Invalid dependency graph"`. Systems are identified by `id` (JS object
identity); the entries of `remainingDeps` are modelled as a list of
`(system, count)` pairs in insertion order. The code's
`"Depender not found"` throw is unreachable from the real entry point
(counts start at `deps.length`, so a system with a still-present dependency
never has count zero) and is not modelled. -/

/-- One unit of work: its identity and its declared dependencies (ids). -/
structure SysNode where
  id : Nat
  deps : List Nat
deriving DecidableEq, Repr

/-- Decrementing pass: a remaining system's count drops once per occurrence
of a dependency of its that was placed into the step just built. -/
def decrementFor (step : List Nat) (p : SysNode × Nat) : SysNode × Nat :=
  (p.1, p.2 - (p.1.deps.filter (fun d => step.contains d)).length)

/-- The peeling loop of the `Schedule` constructor. -/
def buildSteps (remaining : List (SysNode × Nat)) : Except String (List (List Nat)) :=
  if h : remaining = [] then .ok []
  else
    let step := (remaining.filter (fun p => p.2 = 0)).map (fun p => p.1.id)
    if hs : step = [] then .error "Invalid dependency graph"
    else
      match buildSteps ((remaining.filter (fun p => p.2 ≠ 0)).map (decrementFor step)) with
      | .ok steps => .ok (step :: steps)
      | .error msg => .error msg
termination_by remaining.length
decreasing_by
  rw [List.length_map]
  rw [List.length_filter_lt_length_iff_exists]
  have : ∃ p ∈ remaining, p.2 = 0 := by
    by_contra hnone
    push_neg at hnone
    apply hs
    rw [List.map_eq_nil_iff, List.filter_eq_nil_iff]
    intro p hp
    simpa using hnone p hp
  obtain ⟨p, hp, hp0⟩ := this
  exact ⟨p, hp, by simp [hp0]⟩

/-- `new Schedule(systems, …)`: every system starts with remaining count
`system.deps.length`. -/
def scheduleSteps (systems : List SysNode) : Except String (List (List Nat)) :=
  buildSteps (systems.map (fun s => (s, s.deps.length)))

/-- The step a unit is placed in. -/
def stepIndex (steps : List (List Nat)) (x : Nat) : Nat :=
  steps.findIdx (fun st => st.contains x)

/-- The ids of the remaining entries. -/
def remIds (remaining : List (SysNode × Nat)) : List Nat :=
  remaining.map (fun p => p.1.id)

/-- Count soundness: every remaining count is at least the number of
occurrences of still-remaining systems in that system's `deps`. Holds at the
entry point (counts start at `deps.length`) and is preserved by peeling. -/
def GoodCounts (remaining : List (SysNode × Nat)) : Prop :=
  ∀ p ∈ remaining, ((p.1.deps.filter (fun d => (remIds remaining).contains d)).length ≤ p.2)

theorem filter_mem_split (deps : List Nat) (A B C : List Nat)
    (hiff : ∀ d, d ∈ A ↔ (d ∈ B ∨ d ∈ C)) (hdisj : ∀ d, ¬(d ∈ B ∧ d ∈ C)) :
    (deps.filter (fun d => A.contains d)).length =
      (deps.filter (fun d => B.contains d)).length +
        (deps.filter (fun d => C.contains d)).length := by
  have hconv : ∀ (L X : List Nat),
      L.filter (fun d => X.contains d) = L.filter (fun d => decide (d ∈ X)) := by
    intro L X
    apply List.filter_congr
    intro a _
    simp [List.elem_iff]
  rw [hconv deps A, hconv deps B, hconv deps C]
  induction deps with
  | nil => rfl
  | cons d rest ih =>
    simp only [List.filter_cons]
    by_cases hB : d ∈ B
    · have hA : d ∈ A := (hiff d).mpr (Or.inl hB)
      have hC : d ∉ C := fun hc => hdisj d ⟨hB, hc⟩
      simp [hA, hB, hC, ih]
      omega
    · by_cases hC : d ∈ C
      · have hA : d ∈ A := (hiff d).mpr (Or.inr hC)
        simp [hA, hB, hC, ih]
        omega
      · have hA : d ∉ A := fun ha => ((hiff d).mp ha).elim hB hC
        simp [hA, hB, hC, ih]

/-- One peel round's partition of the remaining ids: the step's ids followed
by the ids kept for the next round. -/
theorem peel_perm (remaining : List (SysNode × Nat)) (step : List Nat) :
    (remIds remaining).Perm
      (((remaining.filter (fun p => p.2 = 0)).map (fun p => p.1.id))
        ++ remIds ((remaining.filter (fun p => p.2 ≠ 0)).map (decrementFor step))) := by
  have hids : remIds ((remaining.filter (fun p => p.2 ≠ 0)).map (decrementFor step)) =
      (remaining.filter (fun p => p.2 ≠ 0)).map (fun p => p.1.id) := by
    unfold remIds decrementFor
    rw [List.map_map]
    rfl
  rw [hids]
  have hfneq : remaining.filter (fun p => p.2 ≠ 0) =
      remaining.filter (fun p => !(decide (p.2 = 0))) := by
    apply List.filter_congr
    intro p _
    simp
  rw [hfneq]
  have hperm := (List.filter_append_perm (fun p => decide (p.2 = 0)) remaining).symm
  have := hperm.map (fun p : SysNode × Nat => p.1.id)
  rw [List.map_append] at this
  exact this

/-- Peeling preserves count soundness. -/
theorem peel_goodCounts (remaining : List (SysNode × Nat))
    (hnd : (remIds remaining).Nodup) (hgc : GoodCounts remaining) :
    GoodCounts ((remaining.filter (fun p => p.2 ≠ 0)).map
      (decrementFor ((remaining.filter (fun p => p.2 = 0)).map (fun p => p.1.id)))) := by
  set step := (remaining.filter (fun p => p.2 = 0)).map (fun p => p.1.id) with hstepdef
  set newRem := (remaining.filter (fun p => p.2 ≠ 0)).map (decrementFor step) with hnewdef
  have hperm := peel_perm remaining step
  have happnd : (step ++ remIds newRem).Nodup := hperm.nodup hnd
  have hdisj : ∀ d, ¬(d ∈ step ∧ d ∈ remIds newRem) := by
    intro d ⟨h1, h2⟩
    exact (List.disjoint_of_nodup_append happnd) h1 h2
  have hiff : ∀ d, d ∈ remIds remaining ↔ (d ∈ step ∨ d ∈ remIds newRem) := by
    intro d
    rw [hperm.mem_iff, List.mem_append]
  intro p' hp'
  rw [hnewdef, List.mem_map] at hp'
  obtain ⟨p, hpfilter, rfl⟩ := hp'
  have hpmem : p ∈ remaining := List.mem_of_mem_filter hpfilter
  have hsplit := filter_mem_split p.1.deps (remIds remaining) step (remIds newRem) hiff hdisj
  have hold := hgc p hpmem
  unfold decrementFor
  simp only
  omega

theorem stepIndex_cons_mem {st : List Nat} {x : Nat} (rest : List (List Nat))
    (h : x ∈ st) : stepIndex (st :: rest) x = 0 := by
  unfold stepIndex
  rw [List.findIdx_cons]
  simp [List.elem_iff, h]

theorem stepIndex_cons_not_mem {st : List Nat} {x : Nat} (rest : List (List Nat))
    (h : x ∉ st) : stepIndex (st :: rest) x = stepIndex rest x + 1 := by
  unfold stepIndex
  rw [List.findIdx_cons]
  simp [List.elem_iff, h]

/-- If a peel round produces a nonempty step, strictly fewer entries
remain. -/
theorem peel_length_lt (remaining : List (SysNode × Nat))
    (hs : (remaining.filter (fun p => p.2 = 0)).map (fun p => p.1.id) ≠ []) :
    (((remaining.filter (fun p => p.2 ≠ 0)).map
      (decrementFor ((remaining.filter (fun p => p.2 = 0)).map (fun p => p.1.id)))).length)
      < remaining.length := by
  rw [List.length_map]
  rw [List.length_filter_lt_length_iff_exists]
  have : ∃ p ∈ remaining, p.2 = 0 := by
    by_contra hnone
    push_neg at hnone
    apply hs
    rw [List.map_eq_nil_iff, List.filter_eq_nil_iff]
    intro p hp
    simpa using hnone p hp
  obtain ⟨p, hp, hp0⟩ := this
  exact ⟨p, hp, by simp [hp0]⟩

/-- Soundness of the peeling loop: on success, the produced steps partition
the remaining ids, and every dependency on a still-remaining system is
placed in a strictly earlier step than its depender. -/
theorem buildSteps_sound (n : Nat) :
    ∀ remaining : List (SysNode × Nat), remaining.length ≤ n →
      (remIds remaining).Nodup → GoodCounts remaining →
      ∀ steps, buildSteps remaining = .ok steps →
        (steps.join.Perm (remIds remaining) ∧
          ∀ p ∈ remaining, ∀ d ∈ p.1.deps, d ∈ remIds remaining →
            stepIndex steps d < stepIndex steps p.1.id) := by
  induction n with
  | zero =>
    intro remaining hlen _ _ steps hok
    have hnil : remaining = [] := List.eq_nil_of_length_eq_zero (Nat.le_zero.mp hlen)
    subst hnil
    rw [buildSteps] at hok
    simp only [dif_pos] at hok
    cases hok
    exact ⟨by simp [remIds], by simp⟩
  | succ n ihn =>
    intro remaining hlen hnd hgc steps hok
    by_cases hrem : remaining = []
    · subst hrem
      rw [buildSteps] at hok
      simp only [dif_pos] at hok
      cases hok
      exact ⟨by simp [remIds], by simp⟩
    · rw [buildSteps] at hok
      rw [dif_neg hrem] at hok
      set step := (remaining.filter (fun p => p.2 = 0)).map (fun p => p.1.id) with hstepdef
      by_cases hsnil : step = []
      · rw [dif_pos hsnil] at hok
        cases hok
      · rw [dif_neg hsnil] at hok
        set newRem := (remaining.filter (fun p => p.2 ≠ 0)).map (decrementFor step)
          with hnewdef
        have hperm := peel_perm remaining step
        have happnd : (step ++ remIds newRem).Nodup := hperm.nodup hnd
        have hndnew : (remIds newRem).Nodup := (List.nodup_append.mp happnd).2.1
        have hdisj : ∀ d, ¬(d ∈ step ∧ d ∈ remIds newRem) := by
          intro d ⟨h1, h2⟩
          exact (List.disjoint_of_nodup_append happnd) h1 h2
        have hgcnew : GoodCounts newRem := peel_goodCounts remaining hnd hgc
        have hlennew : newRem.length ≤ n := by
          have := peel_length_lt remaining hsnil
          rw [← hstepdef, ← hnewdef] at this
          omega
        cases heq : buildSteps newRem with
        | error msg => rw [heq] at hok; cases hok
        | ok rest =>
          rw [heq] at hok
          have hsteps : steps = step :: rest := by
            cases hok
            rfl
          subst hsteps
          obtain ⟨hjoin, hord⟩ := ihn newRem hlennew hndnew hgcnew rest heq
          constructor
          · rw [show (step :: rest).join = step ++ rest.join from rfl]
            exact (List.Perm.append_left step hjoin).trans hperm.symm
          · intro p hp d hd hdin
            by_cases hp0 : p.2 = 0
            · exfalso
              have hold := hgc p hp
              have hdinf : d ∈ p.1.deps.filter (fun d => (remIds remaining).contains d) := by
                rw [List.mem_filter]
                exact ⟨hd, by simpa [List.elem_iff] using hdin⟩
              have : 0 < (p.1.deps.filter (fun d => (remIds remaining).contains d)).length :=
                List.length_pos_of_mem hdinf
              omega
            · have hpin : p ∈ remaining.filter (fun p => p.2 ≠ 0) := by
                rw [List.mem_filter]
                exact ⟨hp, by simpa using hp0⟩
              have hpnew : decrementFor step p ∈ newRem := by
                rw [hnewdef]
                exact List.mem_map_of_mem _ hpin
              have hidnew : p.1.id ∈ remIds newRem := by
                unfold remIds
                exact List.mem_map.mpr ⟨decrementFor step p, hpnew, rfl⟩
              have hidnotstep : p.1.id ∉ step := fun hin => hdisj p.1.id ⟨hin, hidnew⟩
              rw [stepIndex_cons_not_mem rest hidnotstep]
              rcases (hperm.mem_iff.mp hdin : d ∈ step ++ remIds newRem)
                  |> List.mem_append.mp with hdstep | hdnew
              · rw [stepIndex_cons_mem rest hdstep]
                omega
              · have hdnotstep : d ∉ step := fun hin => hdisj d ⟨hin, hdnew⟩
                rw [stepIndex_cons_not_mem rest hdnotstep]
                have hlt := hord (decrementFor step p) hpnew d hd hdnew
                rw [show (decrementFor step p).1.id = p.1.id from rfl] at hlt
                omega

/-- C4: for every successfully constructed schedule over systems with
distinct identities, every unit appears in exactly one step (the steps'
concatenation is a permutation, without duplicates, of the unit ids), and
every declared dependency on a scheduled unit sits in a strictly earlier
step than its depender. -/
theorem schedule_steps_sound (systems : List SysNode)
    (hnd : (systems.map SysNode.id).Nodup)
    (steps : List (List Nat)) (hok : scheduleSteps systems = .ok steps) :
    steps.join.Perm (systems.map SysNode.id) ∧ steps.join.Nodup ∧
      ∀ s ∈ systems, ∀ d ∈ s.deps, d ∈ systems.map SysNode.id →
        stepIndex steps d < stepIndex steps s.id := by
  have hids : remIds (systems.map (fun s => (s, s.deps.length))) = systems.map SysNode.id := by
    unfold remIds
    rw [List.map_map]
    rfl
  have hgc : GoodCounts (systems.map (fun s => (s, s.deps.length))) := by
    intro p hp
    rw [List.mem_map] at hp
    obtain ⟨s, _, rfl⟩ := hp
    exact List.length_filter_le _ _
  obtain ⟨hjoin, hord⟩ := buildSteps_sound (systems.map (fun s => (s, s.deps.length))).length
    (systems.map (fun s => (s, s.deps.length))) le_rfl (hids ▸ hnd) hgc steps hok
  rw [hids] at hjoin
  refine ⟨hjoin, hjoin.symm.nodup hnd, ?_⟩
  intro s hs d hd hdin
  have hp : (s, s.deps.length) ∈ systems.map (fun s => (s, s.deps.length)) :=
    List.mem_map_of_mem _ hs
  have := hord (s, s.deps.length) hp d hd (by rw [hids]; exact hdin)
  exact this

/-- Witness for C4 at the spec's two-independent-units scenario:
`A`, `B` independent, `C` depending on both, scheduled as `[[A, B], [C]]`. -/
theorem schedule_steps_sound_witness :
    ([[0, 1], [2]] : List (List Nat)).join.Perm
        (([⟨0, []⟩, ⟨1, []⟩, ⟨2, [0, 1]⟩] : List SysNode).map SysNode.id) ∧
      ([[0, 1], [2]] : List (List Nat)).join.Nodup ∧
      ∀ s ∈ ([⟨0, []⟩, ⟨1, []⟩, ⟨2, [0, 1]⟩] : List SysNode), ∀ d ∈ s.deps,
        d ∈ ([⟨0, []⟩, ⟨1, []⟩, ⟨2, [0, 1]⟩] : List SysNode).map SysNode.id →
          stepIndex [[0, 1], [2]] d < stepIndex [[0, 1], [2]] s.id :=
  schedule_steps_sound [⟨0, []⟩, ⟨1, []⟩, ⟨2, [0, 1]⟩] (by decide) [[0, 1], [2]]
    (by simp [scheduleSteps, buildSteps, decrementFor])

/-- A set of unit ids each of which is a scheduled unit depending on another
member of the set. A dependency cycle's vertices form such a set, and no
member can ever reach remaining-count zero. -/
def CycleWitness (systems : List SysNode) (S : List Nat) : Prop :=
  S ≠ [] ∧ ∀ x ∈ S, ∃ s ∈ systems, s.id = x ∧ ∃ d ∈ s.deps, d ∈ S

/-- A dependency cycle `c₀ → c₁ → … → c₀` among the given systems: each
listed unit is a system whose `deps` contain the (cyclically) next one. -/
def IsCycle (systems : List SysNode) (c : List Nat) : Prop :=
  c ≠ [] ∧ ∀ i : Fin c.length,
    ∃ s ∈ systems, s.id = c.get i ∧
      c.get ⟨(i.val + 1) % c.length, Nat.mod_lt _ i.pos⟩ ∈ s.deps

theorem isCycle_cycleWitness {systems : List SysNode} {c : List Nat}
    (h : IsCycle systems c) : CycleWitness systems c := by
  obtain ⟨hne, hadj⟩ := h
  refine ⟨hne, ?_⟩
  intro x hx
  obtain ⟨i, hi⟩ := List.mem_iff_get.mp hx
  obtain ⟨s, hs, hid, hdep⟩ := hadj i
  refine ⟨s, hs, by rw [hid, hi], ?_⟩
  exact ⟨c.get ⟨(i.val + 1) % c.length, Nat.mod_lt _ i.pos⟩, hdep, List.get_mem c _ _⟩

/-- In the presence of a closed set of mutually dependent remaining systems,
no member ever reaches count zero, and the peeling loop ends in the
`"Invalid dependency graph"` throw. -/
theorem buildSteps_cycle_error (n : Nat) :
    ∀ remaining : List (SysNode × Nat), remaining.length ≤ n →
      (remIds remaining).Nodup → GoodCounts remaining →
      ∀ S : List Nat, S ≠ [] →
        (∀ x ∈ S, ∃ p ∈ remaining, p.1.id = x ∧ ∃ d ∈ p.1.deps, d ∈ S) →
        buildSteps remaining = .error "Invalid dependency graph" := by
  induction n with
  | zero =>
    intro remaining hlen _ _ S hSne hSprop
    exfalso
    obtain ⟨x, hx⟩ := List.exists_mem_of_ne_nil S hSne
    obtain ⟨p, hp, _⟩ := hSprop x hx
    have : remaining = [] := List.eq_nil_of_length_eq_zero (Nat.le_zero.mp hlen)
    subst this
    cases hp
  | succ n ihn =>
    intro remaining hlen hnd hgc S hSne hSprop
    have hrem : remaining ≠ [] := by
      intro hnil
      obtain ⟨x, hx⟩ := List.exists_mem_of_ne_nil S hSne
      obtain ⟨p, hp, _⟩ := hSprop x hx
      subst hnil
      cases hp
    have hpos : ∀ x ∈ S, ∃ p ∈ remaining, p.1.id = x ∧ (∃ d ∈ p.1.deps, d ∈ S) ∧ 1 ≤ p.2 := by
      intro x hx
      obtain ⟨p, hp, hid, d, hd, hdS⟩ := hSprop x hx
      obtain ⟨p', hp', hid', _⟩ := hSprop d hdS
      have hdin : d ∈ remIds remaining := by
        unfold remIds
        exact List.mem_map.mpr ⟨p', hp', hid'⟩
      have hdinf : d ∈ p.1.deps.filter (fun d => (remIds remaining).contains d) := by
        rw [List.mem_filter]
        exact ⟨hd, by simpa [List.elem_iff] using hdin⟩
      have hlen1 : 0 < (p.1.deps.filter (fun d => (remIds remaining).contains d)).length :=
        List.length_pos_of_mem hdinf
      have := hgc p hp
      exact ⟨p, hp, hid, ⟨d, hd, hdS⟩, by omega⟩
    rw [buildSteps, dif_neg hrem]
    set step := (remaining.filter (fun p => p.2 = 0)).map (fun p => p.1.id) with hstepdef
    by_cases hsnil : step = []
    · rw [dif_pos hsnil]
    · rw [dif_neg hsnil]
      set newRem := (remaining.filter (fun p => p.2 ≠ 0)).map (decrementFor step)
        with hnewdef
      have hperm := peel_perm remaining step
      have happnd : (step ++ remIds newRem).Nodup := hperm.nodup hnd
      have hndnew : (remIds newRem).Nodup := (List.nodup_append.mp happnd).2.1
      have hgcnew : GoodCounts newRem := peel_goodCounts remaining hnd hgc
      have hlennew : newRem.length ≤ n := by
        have := peel_length_lt remaining hsnil
        rw [← hstepdef, ← hnewdef] at this
        omega
      have hSnew : ∀ x ∈ S, ∃ p ∈ newRem, p.1.id = x ∧ ∃ d ∈ p.1.deps, d ∈ S := by
        intro x hx
        obtain ⟨p, hp, hid, hdep, hp1⟩ := hpos x hx
        have hpin : p ∈ remaining.filter (fun p => p.2 ≠ 0) := by
          rw [List.mem_filter]
          refine ⟨hp, by simp; omega⟩
        refine ⟨decrementFor step p, ?_, hid, hdep⟩
        rw [hnewdef]
        exact List.mem_map_of_mem _ hpin
      rw [ihn newRem hlennew hndnew hgcnew S hSne hSnew]

/-- C5: constructing a schedule whose declared dependencies contain a cycle
always fails with the `"Invalid dependency graph"` error — no schedule value
is produced. -/
theorem schedule_cycle_fails (systems : List SysNode) (c : List Nat)
    (hnd : (systems.map SysNode.id).Nodup) (hc : IsCycle systems c) :
    scheduleSteps systems = .error "Invalid dependency graph" := by
  obtain ⟨hSne, hwit⟩ := isCycle_cycleWitness hc
  have hids : remIds (systems.map (fun s => (s, s.deps.length))) = systems.map SysNode.id := by
    unfold remIds
    rw [List.map_map]
    rfl
  have hgc : GoodCounts (systems.map (fun s => (s, s.deps.length))) := by
    intro p hp
    rw [List.mem_map] at hp
    obtain ⟨s, _, rfl⟩ := hp
    exact List.length_filter_le _ _
  apply buildSteps_cycle_error (systems.map (fun s => (s, s.deps.length))).length
    _ le_rfl (hids ▸ hnd) hgc c hSne
  intro x hx
  obtain ⟨s, hs, hid, d, hd, hdS⟩ := hwit x hx
  exact ⟨(s, s.deps.length), List.mem_map_of_mem _ hs, hid, d, hd, hdS⟩

/-- Witness for C5 at the spec's concrete scenario: `A.deps = [B]`,
`B.deps = [A]`. -/
theorem schedule_cycle_fails_witness :
    scheduleSteps [⟨0, [1]⟩, ⟨1, [0]⟩] = .error "Invalid dependency graph" :=
  schedule_cycle_fails [⟨0, [1]⟩, ⟨1, [0]⟩] [0, 1] (by decide)
    (by unfold IsCycle; exact ⟨by decide, by decide⟩)

end Zecs
